import Mathlib

/-!
# Verification of the miniplex core (`World`, buckets, archetype indices)

This file embeds the reactive indexing engine of the miniplex repository:
the `World` class of `packages/miniplex-core/src/World.ts` together with the
bucket / archetype-index machinery it builds on (the `EntityBucket` base
class is not part of the visible sources; it is modelled from the
specification, see the doc comments below).

Modelling choices:
* Entities are JavaScript objects with reference identity; we represent a
  reference by a natural number `EId` and keep the objects' fields in a
  store `EId → Fields` carried by the `World`.
* A JavaScript object is a finite association list from component names to
  stored values.  A stored value is an `Option Val`: `none` models a field
  that holds the JavaScript value `undefined` (the missing-sentinel), which
  is distinct — at the object-representation level — from the field being
  absent altogether.  Reading `entity[c]` (`readF`) collapses the two, just
  as JavaScript property reads do.
* Event dispatch is modelled by a trace: each fired `entity-added` /
  `entity-removed` event records the entity reference and a snapshot of the
  fields the listener observes on the entity argument at dispatch time.
-/

/-- An entity reference (JavaScript object identity). -/
abbrev EId := Nat

/-- A component name. -/
abbrev Comp := String

/-- Component values (a representative closed universe of JS values). -/
inductive Val where
  | int (n : Int)
  | str (s : String)
  | bool (b : Bool)
deriving DecidableEq, Repr

/-- The fields of a JavaScript object: an association list from component
name to stored value; a stored `none` is a field explicitly holding
`undefined`. -/
abbrev Fields := List (Comp × Option Val)

/-- Reading `entity[c]`: yields `none` both when the field is absent and
when it stores `undefined` — exactly the JavaScript property read. -/
def readF (f : Fields) (c : Comp) : Option Val :=
  match f.lookup c with
  | none => none
  | some v => v

/-- A component is present iff its read value is not `undefined`
(the missing-sentinel rule of the spec). -/
def presentF (f : Fields) (c : Comp) : Bool :=
  (readF f c).isSome

/-- JavaScript assignment `entity[c] = v`: replaces the stored value in
place when the key exists, appends otherwise. -/
def setField : Fields → Comp → Option Val → Fields
  | [], c, v => [(c, v)]
  | (c', v') :: rest, c, v =>
    if c' = c then (c, v) :: rest else (c', v') :: setField rest c v

/-- JavaScript `delete entity[c]`: removes the key entirely. -/
def deleteField (f : Fields) (c : Comp) : Fields :=
  f.filter (fun p => p.1 ≠ c)

/-- `Object.assign(entity, partial)`: assigns every field of the partial
(in order) onto the entity. -/
def mergeFields (f : Fields) (p : Fields) : Fields :=
  p.foldl (fun acc kv => setField acc kv.1 kv.2) f

/-- Modelled from the spec: a query specification for an archetype index
(`with` required components, `without` excluded components, optional
custom `where` test); the query compiler of the bucket machinery is not in
the visible sources. -/
structure Query where
  withs : List Comp
  withouts : List Comp
  whereP : Option (Fields → Bool)

/-- Modelled from the spec: compiled predicate of a query —
`matches(e) = (∀ c ∈ with, present) ∧ (∀ c ∈ without, ¬present) ∧ where`. -/
def matchesQ (q : Query) (f : Fields) : Bool :=
  q.withs.all (fun c => presentF f c) &&
  q.withouts.all (fun c => !presentF f c) &&
  (match q.whereP with
   | none => true
   | some p => p f)

mutual
/-- Modelled from the spec: an archetype index — a bucket holding a
compiled predicate, its current ordered entity sequence, and its registered
child buckets (the DAG of derived views, here a tree rooted at the
`World`). -/
inductive BucketT where
  | mk (q : Query) (ents : List EId) (children : BucketList)
/-- A list of child buckets (mutual with `BucketT`). -/
inductive BucketList where
  | nil
  | cons (b : BucketT) (bs : BucketList)
end

def BucketT.query : BucketT → Query
  | .mk q _ _ => q

def BucketT.ents : BucketT → List EId
  | .mk _ es _ => es

def BucketT.children : BucketT → BucketList
  | .mk _ _ cs => cs

/-- An entity store: object reference to current fields. -/
abbrev Store := EId → Fields

/-- An event fired on a bucket's add/remove channel, with the snapshot of
the fields a listener observes on the entity argument at dispatch time. -/
inductive Event where
  | added (e : EId) (snapshot : Fields)
  | removed (e : EId) (snapshot : Fields)
deriving DecidableEq, Repr

mutual
/-- Modelled from the spec: `Bucket.remove` as used for the unconditional
removal cascade — a no-op if the entity is absent; otherwise removes it
from the sequence, fires `entity-removed` with the entity in its current
form, then propagates removal to all children regardless of predicate. -/
def remCascadeB (st : Store) (e : EId) : BucketT → BucketT × List Event
  | .mk q ents cs =>
    if ents.contains e then
      (.mk q (ents.filter (fun x => x ≠ e)) (remCascadeL st e cs).1,
        Event.removed e (st e) :: (remCascadeL st e cs).2)
    else (.mk q ents cs, [])
/-- Removal cascade over a list of child buckets. -/
def remCascadeL (st : Store) (e : EId) : BucketList → BucketList × List Event
  | .nil => (.nil, [])
  | .cons b bs =>
    (.cons (remCascadeB st e b).1 (remCascadeL st e bs).1,
      (remCascadeB st e b).2 ++ (remCascadeL st e bs).2)
end

mutual
/-- Modelled from the spec: `Bucket.add` admission cascade — a no-op when
the entity is already present; otherwise, if the predicate holds, appends
the entity, fires `entity-added`, then propagates the admission to all
children so they may admit it too. -/
def addCascadeB (st : Store) (e : EId) : BucketT → BucketT × List Event
  | .mk q ents cs =>
    if ents.contains e then (.mk q ents cs, [])
    else if matchesQ q (st e) then
      (.mk q (ents ++ [e]) (addCascadeL st e cs).1,
        Event.added e (st e) :: (addCascadeL st e cs).2)
    else (.mk q ents cs, [])
/-- Admission cascade over a list of child buckets. -/
def addCascadeL (st : Store) (e : EId) : BucketList → BucketList × List Event
  | .nil => (.nil, [])
  | .cons b bs =>
    (.cons (addCascadeB st e b).1 (addCascadeL st e bs).1,
      (addCascadeB st e b).2 ++ (addCascadeL st e bs).2)
end

/-- The fields the predicate is tested against in `evaluate`: the
hypothetical ("future") fields when given, else the entity's current
fields. -/
def testSubject (st : Store) (e : EId) : Option Fields → Fields
  | some f => f
  | none => st e

mutual
/-- Modelled from the spec: `evaluate(entity, hypothetical?)`, the sole
reindexing primitive.  The test subject is the hypothetical fields when
given, else the entity's current fields; membership transitions fire the
corresponding event with the real entity (never the hypothetical), removal
cascades unconditionally to children, and when membership is unchanged but
the entity is a member, evaluation still propagates to children. -/
def evalB (st : Store) (e : EId) (fut : Option Fields) : BucketT → BucketT × List Event
  | .mk q ents cs =>
    if ents.contains e then
      if matchesQ q (testSubject st e fut) then
        (.mk q ents (evalL st e fut cs).1, (evalL st e fut cs).2)
      else
        (.mk q (ents.filter (fun x => x ≠ e)) (remCascadeL st e cs).1,
          Event.removed e (st e) :: (remCascadeL st e cs).2)
    else
      if matchesQ q (testSubject st e fut) then
        (.mk q (ents ++ [e]) (evalL st e fut cs).1,
          Event.added e (st e) :: (evalL st e fut cs).2)
      else (.mk q ents cs, [])
/-- `evaluate` propagated over a list of child buckets, depth-first. -/
def evalL (st : Store) (e : EId) (fut : Option Fields) : BucketList → BucketList × List Event
  | .nil => (.nil, [])
  | .cons b bs =>
    (.cons (evalB st e fut b).1 (evalL st e fut bs).1,
      (evalB st e fut b).2 ++ (evalL st e fut bs).2)
end

/-- The `World`: the root bucket (unconstrained predicate, so its own
membership list and registered children are carried directly), the entity
store, and the identity table of `World.ts` (`entityToId`, `idToEntity`,
`nextId`). -/
structure World where
  store : Store
  entities : List EId
  children : BucketList
  entityToId : List (EId × Nat)
  idToEntity : List (Nat × EId)
  nextId : Nat

/-- `Bucket.has`: reference-identity membership in the root bucket. -/
def World.hasW (w : World) (e : EId) : Bool :=
  w.entities.contains e

/-- Pointwise store mutation of one entity's fields. -/
def setStore (st : Store) (e : EId) (f : Fields) : Store :=
  fun x => if x = e then f else st x

/-- Modelled from the spec: `World.add` — appends the entity to the root
bucket if not already present (idempotent), fires `entity-added`, then
propagates admission to all registered children. -/
def World.add (w : World) (e : EId) : World × List Event :=
  if w.entities.contains e then (w, [])
  else
    ({ w with
        entities := w.entities ++ [e],
        children := (addCascadeL w.store e w.children).1 },
      Event.added e (w.store e) :: (addCascadeL w.store e w.children).2)

/-- The identity-purge listener registered in the `World` constructor: when
an entity is removed from the world, delete both identity-map entries. -/
def purgeId (w : World) (e : EId) : World :=
  match w.entityToId.lookup e with
  | none => w
  | some n =>
    { w with
        entityToId := w.entityToId.filter (fun p => p.1 ≠ e),
        idToEntity := w.idToEntity.filter (fun p => p.1 ≠ n) }

/-- Modelled from the spec: `World.remove` — delegates to `Bucket.remove`
(no-op if absent; otherwise removes, fires `entity-removed`, cascades the
removal through every derived index) and, via the world's own removal
listener, purges the identity-table entries. -/
def World.remove (w : World) (e : EId) : World × List Event :=
  if w.entities.contains e then
    (purgeId
      { w with
          entities := w.entities.filter (fun x => x ≠ e),
          children := (remCascadeL w.store e w.children).1 } e,
      Event.removed e (w.store e) :: (remCascadeL w.store e w.children).2)
  else (w, [])

/-- The second argument of `World.update`: absent, a partial to merge, a
component/value pair, or a function that may mutate the entity and/or
return a partial to merge. -/
inductive UpdateArg where
  | noArg
  | partialU (p : Fields)
  | comp (c : Comp) (v : Option Val)
  | fn (g : Fields → Fields × Option Fields)

/-- The mutation step of `World.update` (`World.ts` lines 31–38): apply a
function (merging a returned partial), set a single field, or merge a
partial record. -/
def applyUpdate (f : Fields) : UpdateArg → Fields
  | .noArg => f
  | .partialU p => mergeFields f p
  | .comp c v => setField f c v
  | .fn g =>
    match g f with
    | (f', none) => f'
    | (f', some p) => mergeFields f' p

/-- `World.update` (`World.ts` lines 26–46): applies the change to the
entity, then — only if the world has the entity — evaluates it against the
already-mutated fields (no hypothetical). -/
def World.update (w : World) (e : EId) (u : UpdateArg) : World × List Event :=
  let w' := { w with store := setStore w.store e (applyUpdate (w.store e) u) }
  if w'.hasW e then
    ({ w' with children := (evalL w'.store e none w'.children).1 },
      (evalL w'.store e none w'.children).2)
  else (w', [])

/-- `World.addComponent` (`World.ts` lines 48–59): returns early if the
entity already has the component (read is not `undefined`); otherwise sets
the field and, if the world has the entity, evaluates it. -/
def World.addComponent (w : World) (e : EId) (c : Comp) (v : Option Val) :
    World × List Event :=
  match readF (w.store e) c with
  | some _ => (w, [])
  | none =>
    let w' := { w with store := setStore w.store e (setField (w.store e) c v) }
    if w'.hasW e then
      ({ w' with children := (evalL w'.store e none w'.children).1 },
        (evalL w'.store e none w'.children).2)
    else (w', [])

/-- `World.removeComponent` (`World.ts` lines 61–74): returns early if the
component is absent; otherwise, if the world has the entity, evaluates it
against a shallow copy lacking the component (the future check), and only
then physically deletes the field. -/
def World.removeComponent (w : World) (e : EId) (c : Comp) :
    World × List Event :=
  match readF (w.store e) c with
  | none => (w, [])
  | some _ =>
    let r :=
      if w.hasW e then
        ({ w with
            children := (evalL w.store e (some (deleteField (w.store e) c)) w.children).1 },
          (evalL w.store e (some (deleteField (w.store e) c)) w.children).2)
      else (w, ([] : List Event))
    ({ r.1 with store := setStore r.1.store e (deleteField (r.1.store e) c) }, r.2)

/-- `World.id` (`World.ts` lines 81–93): `undefined` for entities not in
the world; otherwise lazily assigns the next counter value and returns the
mapped id. -/
def World.idOp (w : World) (e : EId) : Option Nat × World :=
  if w.hasW e then
    match w.entityToId.lookup e with
    | some n => (some n, w)
    | none =>
      (some w.nextId,
        { w with
            entityToId := (e, w.nextId) :: w.entityToId,
            idToEntity := (w.nextId, e) :: w.idToEntity,
            nextId := w.nextId + 1 })
  else (none, w)

/-- `World.entity` (`World.ts` lines 95–97): reverse id lookup. -/
def World.entityOp (w : World) (n : Nat) : Option EId :=
  w.idToEntity.lookup n

/-- Modelled from the spec: deriving an archetype index on the world —
the new index is registered in the parent's child list and initialized by
scanning the parent's current members, admitting those already matching. -/
def World.archetype (w : World) (q : Query) : World :=
  { w with
      children :=
        .cons (.mk q (w.entities.filter (fun e => matchesQ q (w.store e))) .nil)
          w.children }

mutual
/-- The subset invariant of the spec, over a bucket subtree: every child's
membership is contained in its parent's, recursively. -/
def subInvB : BucketT → Bool
  | .mk _ ents cs => subInvL ents cs
/-- The subset invariant for a list of children of a parent with entity
list `pents`. -/
def subInvL (pents : List EId) : BucketList → Bool
  | .nil => true
  | .cons b bs =>
    b.ents.all (fun x => pents.contains x) && subInvB b && subInvL pents bs
end

/-- The subset invariant over the whole world: every derived index's
membership is contained in its parent's, down the DAG from the root. -/
def World.subInvW (w : World) : Bool :=
  subInvL w.entities w.children

mutual
/-- All buckets of a subtree, the root of the subtree included. -/
def allBucketsB : BucketT → List BucketT
  | .mk q ents cs => .mk q ents cs :: allBucketsL cs
/-- All buckets of a forest of subtrees. -/
def allBucketsL : BucketList → List BucketT
  | .nil => []
  | .cons b bs => allBucketsB b ++ allBucketsL bs
end

/-- All derived buckets of a world (the root bucket's membership is the
world's own entity list and is not included). -/
def World.allIndices (w : World) : List BucketT :=
  allBucketsL w.children

/-- The identity-table invariant: the two maps are mutual inverses (each
entry of one is found by lookup in the other) and every stored id is below
the counter. -/
def IdInv (w : World) : Prop :=
  (∀ p ∈ w.entityToId, w.idToEntity.lookup p.2 = some p.1 ∧ p.2 < w.nextId) ∧
  (∀ p ∈ w.idToEntity, w.entityToId.lookup p.2 = some p.1)

instance (w : World) : Decidable (IdInv w) := by
  unfold IdInv
  infer_instance

/-- A public operation of the `World` API (used to state invariants over
arbitrary operation sequences). -/
inductive Op where
  | add (e : EId)
  | remove (e : EId)
  | update (e : EId) (u : UpdateArg)
  | addComponent (e : EId) (c : Comp) (v : Option Val)
  | removeComponent (e : EId) (c : Comp)
  | id (e : EId)
  | archetype (q : Query)

/-- Whether an operation is the removal of a given entity. -/
def Op.isRemoveOf : Op → EId → Bool
  | .remove x, e => x == e
  | _, _ => false

/-- Apply one public operation to the world (dropping return values and
event traces). -/
def applyOp (w : World) : Op → World
  | .add e => (World.add w e).1
  | .remove e => (World.remove w e).1
  | .update e u => (World.update w e u).1
  | .addComponent e c v => (World.addComponent w e c v).1
  | .removeComponent e c => (World.removeComponent w e c).1
  | .id e => (World.idOp w e).2
  | .archetype q => World.archetype w q

/-- Run a sequence of public operations. -/
def runOps (w : World) (ops : List Op) : World :=
  ops.foldl applyOp w

/-- The entity an event is about. -/
def Event.ent : Event → EId
  | .added e _ => e
  | .removed e _ => e

/-- The snapshot of the entity's fields a listener observes when the event
is dispatched. -/
def Event.snap : Event → Fields
  | .added _ f => f
  | .removed _ f => f

/-- Whether an event is an entity-removed event. -/
def Event.isRemoved : Event → Bool
  | .added _ _ => false
  | .removed _ _ => true

/-! ## Concrete example worlds (used to instantiate theorems) -/

/-- Example store: entity 0 is John (name, age 30), entity 1 is Jane
(name, age 35), entity 2 is Bob (name only) and everything else is an
empty object. -/
def exStore : Store := fun x =>
  if x = 0 then [("name", some (Val.str "John")), ("age", some (Val.int 30))]
  else if x = 1 then [("name", some (Val.str "Jane")), ("age", some (Val.int 35))]
  else if x = 2 then [("name", some (Val.str "Bob"))]
  else []

/-- The query `{ with: ["age"] }`. -/
def exQAge : Query := ⟨["age"], [], none⟩

/-- Example world: John and Jane tracked, a `with("age")` archetype index
containing both, Bob (entity 2) untracked. -/
def exWorld : World :=
  { store := exStore, entities := [0, 1],
    children := .cons (.mk exQAge [0, 1] .nil) .nil,
    entityToId := [], idToEntity := [], nextId := 0 }

/-- `exWorld` after John's id has been assigned (id 0, counter at 1). -/
def exWorldIds : World :=
  { exWorld with entityToId := [(0, 0)], idToEntity := [(0, 0)], nextId := 1 }

/-- Example world for the missing-sentinel rule: entity 0 is tracked and
its `age` field explicitly stores `undefined`; an (empty) `with("age")`
index is registered. -/
def exWorldUndef : World :=
  { store := fun x =>
      if x = 0 then [("name", some (Val.str "John")), ("age", none)] else [],
    entities := [0],
    children := .cons (.mk exQAge [] .nil) .nil,
    entityToId := [], idToEntity := [], nextId := 0 }

/-! ## Association-list lemmas -/

theorem lookup_mem {β : Type} {l : List (Nat × β)} {k : Nat} {v : β}
    (h : l.lookup k = some v) : (k, v) ∈ l := by
  induction l with
  | nil => simp at h
  | cons p rest ih =>
    rcases p with ⟨a, b⟩
    rw [List.lookup_cons] at h
    by_cases hk : k = a
    · simp only [hk, beq_self_eq_true] at h
      cases h
      simp [hk]
    · have : (k == a) = false := by simp [hk]
      simp only [this] at h
      exact List.mem_cons_of_mem _ (ih h)

theorem lookup_filter_key_ne {β : Type} {l : List (Nat × β)} {k k' : Nat}
    (h : k' ≠ k) : (l.filter (fun p => p.1 ≠ k)).lookup k' = l.lookup k' := by
  induction l with
  | nil => rfl
  | cons p rest ih =>
    rcases p with ⟨a, b⟩
    simp only [ne_eq, decide_not] at ih ⊢
    rw [List.filter_cons]
    by_cases hp : a = k
    · have h1 : (!decide ((a, b).1 = k)) = false := by simp [hp]
      rw [h1]
      simp only [Bool.false_eq_true, if_false]
      rw [ih, List.lookup_cons]
      have h2 : (k' == a) = false := by simp [hp ▸ h]
      simp only [h2]
    · have h1 : (!decide ((a, b).1 = k)) = true := by simp [hp]
      rw [h1]
      simp only [if_true]
      rw [List.lookup_cons, List.lookup_cons]
      by_cases hk : k' = a
      · simp [hk]
      · have h2 : (k' == a) = false := by simp [hk]
        simp only [h2, ih]

theorem lookup_filter_key_self {β : Type} {l : List (Nat × β)} {k : Nat} :
    (l.filter (fun p => p.1 ≠ k)).lookup k = none := by
  induction l with
  | nil => rfl
  | cons p rest ih =>
    rcases p with ⟨a, b⟩
    simp only [ne_eq, decide_not] at ih ⊢
    rw [List.filter_cons]
    by_cases hp : a = k
    · have h1 : (!decide ((a, b).1 = k)) = false := by simp [hp]
      rw [h1]
      simpa using ih
    · have h1 : (!decide ((a, b).1 = k)) = true := by simp [hp]
      rw [h1]
      simp only [if_true]
      rw [List.lookup_cons]
      have h2 : (k == a) = false := by simp [Ne.symm hp]
      simp only [h2, ih]

/-! ## Field-map lemmas -/

theorem lookup_setField_self (f : Fields) (c : Comp) (v : Option Val) :
    (setField f c v).lookup c = some v := by
  induction f with
  | nil => simp [setField, List.lookup]
  | cons p rest ih =>
    rcases p with ⟨a, b⟩
    simp only [setField]
    split
    · simp [List.lookup]
    · rename_i hne
      rw [List.lookup_cons]
      have : (c == a) = false := by
        simp only [beq_eq_false_iff_ne]
        exact fun hc => hne hc.symm
      simp only [this, ih]

theorem readF_setField_self (f : Fields) (c : Comp) (v : Option Val) :
    readF (setField f c v) c = v := by
  simp only [readF, lookup_setField_self]

theorem lookup_deleteField_self (f : Fields) (c : Comp) :
    (deleteField f c).lookup c = none := by
  induction f with
  | nil => rfl
  | cons p rest ih =>
    rcases p with ⟨a, b⟩
    simp only [deleteField, ne_eq, decide_not] at ih ⊢
    rw [List.filter_cons]
    by_cases hp : a = c
    · have h1 : (!decide ((a, b).1 = c)) = false := by simp [hp]
      rw [h1]
      simpa using ih
    · have h1 : (!decide ((a, b).1 = c)) = true := by simp [hp]
      rw [h1]
      simp only [if_true]
      rw [List.lookup_cons]
      have h2 : (c == a) = false := by simp [Ne.symm hp]
      simp only [h2, ih]

theorem readF_deleteField_self (f : Fields) (c : Comp) :
    readF (deleteField f c) c = none := by
  simp only [readF, lookup_deleteField_self]

theorem presentF_deleteField_self (f : Fields) (c : Comp) :
    presentF (deleteField f c) c = false := by
  simp [presentF, readF_deleteField_self]

/-! ## Query lemmas -/

theorem matchesQ_eq_false_of_with {q : Query} {f : Fields} {c : Comp}
    (hc : c ∈ q.withs) (hp : presentF f c = false) : matchesQ q f = false := by
  simp only [matchesQ, Bool.and_eq_false_iff]
  left; left
  rw [List.all_eq_false]
  exact ⟨c, hc, by simp [hp]⟩

/-! ## Event lemmas: every event fired while reindexing entity `e` is about
`e`, and the listener's snapshot is the real entity's current fields. -/

mutual
theorem remCascadeB_events (st : Store) (e : EId) :
    ∀ (b : BucketT) (ev : Event), ev ∈ (remCascadeB st e b).2 →
      ev = .removed e (st e)
  | .mk q ents cs, ev => by
    intro h
    simp only [remCascadeB] at h
    split at h
    · simp only [List.mem_cons] at h
      rcases h with h | h
      · exact h
      · exact remCascadeL_events st e cs ev h
    · simp at h
theorem remCascadeL_events (st : Store) (e : EId) :
    ∀ (bs : BucketList) (ev : Event), ev ∈ (remCascadeL st e bs).2 →
      ev = .removed e (st e)
  | .nil, ev => by intro h; simp [remCascadeL] at h
  | .cons b bs, ev => by
    intro h
    simp only [remCascadeL, List.mem_append] at h
    rcases h with h | h
    · exact remCascadeB_events st e b ev h
    · exact remCascadeL_events st e bs ev h
end

mutual
theorem addCascadeB_events (st : Store) (e : EId) :
    ∀ (b : BucketT) (ev : Event), ev ∈ (addCascadeB st e b).2 →
      ev = .added e (st e)
  | .mk q ents cs, ev => by
    intro h
    simp only [addCascadeB] at h
    split at h
    · simp at h
    · split at h
      · simp only [List.mem_cons] at h
        rcases h with h | h
        · exact h
        · exact addCascadeL_events st e cs ev h
      · simp at h
theorem addCascadeL_events (st : Store) (e : EId) :
    ∀ (bs : BucketList) (ev : Event), ev ∈ (addCascadeL st e bs).2 →
      ev = .added e (st e)
  | .nil, ev => by intro h; simp [addCascadeL] at h
  | .cons b bs, ev => by
    intro h
    simp only [addCascadeL, List.mem_append] at h
    rcases h with h | h
    · exact addCascadeB_events st e b ev h
    · exact addCascadeL_events st e bs ev h
end

mutual
theorem evalB_events (st : Store) (e : EId) (fut : Option Fields) :
    ∀ (b : BucketT) (ev : Event), ev ∈ (evalB st e fut b).2 →
      ev = .added e (st e) ∨ ev = .removed e (st e)
  | .mk q ents cs, ev => by
    intro h
    simp only [evalB] at h
    split at h
    · split at h
      · exact evalL_events st e fut cs ev h
      · simp only [List.mem_cons] at h
        rcases h with h | h
        · right; exact h
        · right; exact remCascadeL_events st e cs ev h
    · split at h
      · simp only [List.mem_cons] at h
        rcases h with h | h
        · left; exact h
        · exact evalL_events st e fut cs ev h
      · simp at h
theorem evalL_events (st : Store) (e : EId) (fut : Option Fields) :
    ∀ (bs : BucketList) (ev : Event), ev ∈ (evalL st e fut bs).2 →
      ev = .added e (st e) ∨ ev = .removed e (st e)
  | .nil, ev => by intro h; simp [evalL] at h
  | .cons b bs, ev => by
    intro h
    simp only [evalL, List.mem_append] at h
    rcases h with h | h
    · exact evalB_events st e fut b ev h
    · exact evalL_events st e fut bs ev h
end

/-! ## Top-level membership lemmas for the cascade primitives -/

theorem remCascadeB_mem (st : Store) (e : EId) (b : BucketT) (x : EId)
    (h : x ∈ (remCascadeB st e b).1.ents) : x ∈ b.ents ∧ x ≠ e := by
  cases b with
  | mk q ents cs =>
    simp only [remCascadeB] at h
    split at h
    · simp only [BucketT.ents, List.mem_filter] at h
      exact ⟨h.1, by simpa using h.2⟩
    · rename_i hc
      simp only [BucketT.ents] at h ⊢
      refine ⟨h, ?_⟩
      rintro rfl
      rw [List.elem_iff] at hc
      exact hc h

theorem addCascadeB_mem (st : Store) (e : EId) (b : BucketT) (x : EId)
    (h : x ∈ (addCascadeB st e b).1.ents) : x ∈ b.ents ∨ x = e := by
  cases b with
  | mk q ents cs =>
    simp only [addCascadeB] at h
    split at h
    · exact Or.inl h
    · split at h
      · simp only [BucketT.ents, List.mem_append, List.mem_singleton] at h
        simpa only [BucketT.ents] using h
      · exact Or.inl h

theorem evalB_mem (st : Store) (e : EId) (fut : Option Fields) (b : BucketT)
    (x : EId) (h : x ∈ (evalB st e fut b).1.ents) : x ∈ b.ents ∨ x = e := by
  cases b with
  | mk q ents cs =>
    simp only [evalB] at h
    split at h
    · split at h
      · exact Or.inl h
      · simp only [BucketT.ents, List.mem_filter] at h
        exact Or.inl h.1
    · split at h
      · simp only [BucketT.ents, List.mem_append, List.mem_singleton] at h
        simpa only [BucketT.ents] using h
      · exact Or.inl h

/-! ## Subset-invariant preservation -/

mutual
theorem remCascadeB_sub (st : Store) (e : EId) :
    ∀ b : BucketT, subInvB b = true → subInvB (remCascadeB st e b).1 = true
  | .mk q ents cs => by
    intro h
    simp only [subInvB] at h
    simp only [remCascadeB]
    split
    · simp only [subInvB]
      exact remCascadeL_sub st e ents cs h
    · simpa only [subInvB] using h
theorem remCascadeL_sub (st : Store) (e : EId) (pents : List EId) :
    ∀ bs : BucketList, subInvL pents bs = true →
      subInvL (pents.filter (fun x => x ≠ e)) (remCascadeL st e bs).1 = true
  | .nil => by intro _; simp [remCascadeL, subInvL]
  | .cons b bs => by
    intro h
    simp only [subInvL, Bool.and_eq_true] at h
    obtain ⟨⟨hsub, hb⟩, hbs⟩ := h
    simp only [remCascadeL, subInvL, Bool.and_eq_true]
    refine ⟨⟨?_, remCascadeB_sub st e b hb⟩, remCascadeL_sub st e pents bs hbs⟩
    rw [List.all_eq_true]
    intro x hx
    obtain ⟨hxb, hxe⟩ := remCascadeB_mem st e b x hx
    rw [List.all_eq_true] at hsub
    have hxp : x ∈ pents := by
      have := hsub x hxb
      rwa [List.elem_iff] at this
    rw [List.elem_iff, List.mem_filter]
    exact ⟨hxp, by simpa using hxe⟩
end

mutual
theorem addCascadeB_sub (st : Store) (e : EId) :
    ∀ b : BucketT, subInvB b = true → subInvB (addCascadeB st e b).1 = true
  | .mk q ents cs => by
    intro h
    simp only [subInvB] at h
    simp only [addCascadeB]
    split
    · simpa only [subInvB] using h
    · split
      · simp only [subInvB]
        exact addCascadeL_sub st e ents (ents ++ [e])
          (fun x hx => List.mem_append_left _ hx)
          (List.mem_append_right _ (List.mem_singleton.mpr rfl)) cs h
      · simpa only [subInvB] using h
theorem addCascadeL_sub (st : Store) (e : EId) (pents pents' : List EId)
    (hp : ∀ x, x ∈ pents → x ∈ pents') (he : e ∈ pents') :
    ∀ bs : BucketList, subInvL pents bs = true →
      subInvL pents' (addCascadeL st e bs).1 = true
  | .nil => by intro _; simp [addCascadeL, subInvL]
  | .cons b bs => by
    intro h
    simp only [subInvL, Bool.and_eq_true] at h
    obtain ⟨⟨hsub, hb⟩, hbs⟩ := h
    simp only [addCascadeL, subInvL, Bool.and_eq_true]
    refine ⟨⟨?_, addCascadeB_sub st e b hb⟩,
      addCascadeL_sub st e pents pents' hp he bs hbs⟩
    rw [List.all_eq_true]
    intro x hx
    rw [List.elem_iff]
    rcases addCascadeB_mem st e b x hx with hxb | rfl
    · rw [List.all_eq_true] at hsub
      have := hsub x hxb
      rw [List.elem_iff] at this
      exact hp x this
    · exact he
end

mutual
theorem evalB_sub (st : Store) (e : EId) (fut : Option Fields) :
    ∀ b : BucketT, subInvB b = true → subInvB (evalB st e fut b).1 = true
  | .mk q ents cs => by
    intro h
    simp only [subInvB] at h
    simp only [evalB]
    split
    · rename_i hc
      split
      · simp only [subInvB]
        exact evalL_sub st e fut ents ents (fun x hx => hx)
          (List.elem_iff.mp hc) cs h
      · simp only [subInvB]
        exact remCascadeL_sub st e ents cs h
    · split
      · simp only [subInvB]
        exact evalL_sub st e fut ents (ents ++ [e])
          (fun x hx => List.mem_append_left _ hx)
          (List.mem_append_right _ (List.mem_singleton.mpr rfl)) cs h
      · simpa only [subInvB] using h
theorem evalL_sub (st : Store) (e : EId) (fut : Option Fields)
    (pents pents' : List EId) (hp : ∀ x, x ∈ pents → x ∈ pents')
    (he : e ∈ pents') :
    ∀ bs : BucketList, subInvL pents bs = true →
      subInvL pents' (evalL st e fut bs).1 = true
  | .nil => by intro _; simp [evalL, subInvL]
  | .cons b bs => by
    intro h
    simp only [subInvL, Bool.and_eq_true] at h
    obtain ⟨⟨hsub, hb⟩, hbs⟩ := h
    simp only [evalL, subInvL, Bool.and_eq_true]
    refine ⟨⟨?_, evalB_sub st e fut b hb⟩,
      evalL_sub st e fut pents pents' hp he bs hbs⟩
    rw [List.all_eq_true]
    intro x hx
    rw [List.elem_iff]
    rcases evalB_mem st e fut b x hx with hxb | rfl
    · rw [List.all_eq_true] at hsub
      have := hsub x hxb
      rw [List.elem_iff] at this
      exact hp x this
    · exact he
end

/-! ## Absence lemmas: an entity outside a bucket (under the subset
invariant) is outside its whole subtree, and reindexing with a test
subject that fails a bucket's predicate leaves the entity outside that
bucket. -/

mutual
theorem absent_tree_B (e : EId) :
    ∀ b : BucketT, subInvB b = true → e ∉ b.ents →
      ∀ b' ∈ allBucketsB b, e ∉ b'.ents
  | .mk q ents cs => by
    intro hs he b' hb'
    simp only [allBucketsB, List.mem_cons] at hb'
    rcases hb' with rfl | hb'
    · simpa only [BucketT.ents] using he
    · simp only [subInvB] at hs
      exact absent_tree_L e ents cs hs (by simpa only [BucketT.ents] using he) b' hb'
theorem absent_tree_L (e : EId) (pents : List EId) :
    ∀ bs : BucketList, subInvL pents bs = true → e ∉ pents →
      ∀ b' ∈ allBucketsL bs, e ∉ b'.ents
  | .nil => by intro _ _ b' hb'; simp [allBucketsL] at hb'
  | .cons b bs => by
    intro hs he b' hb'
    simp only [subInvL, Bool.and_eq_true] at hs
    obtain ⟨⟨hsub, hb⟩, hbs⟩ := hs
    simp only [allBucketsL, List.mem_append] at hb'
    rcases hb' with hb' | hb'
    · refine absent_tree_B e b hb ?_ b' hb'
      intro hbe
      rw [List.all_eq_true] at hsub
      have := hsub e hbe
      rw [List.elem_iff] at this
      exact he this
    · exact absent_tree_L e pents bs hbs he b' hb'
end

mutual
theorem remCascade_absent_B (st : Store) (e : EId) :
    ∀ b : BucketT, subInvB b = true →
      ∀ b' ∈ allBucketsB (remCascadeB st e b).1, e ∉ b'.ents
  | .mk q ents cs => by
    intro hs b' hb'
    simp only [subInvB] at hs
    simp only [remCascadeB] at hb'
    split at hb'
    · simp only [allBucketsB, List.mem_cons] at hb'
      rcases hb' with rfl | hb'
      · simp only [BucketT.ents, List.mem_filter]
        rintro ⟨-, h⟩
        simp at h
      · exact remCascade_absent_L st e ents cs hs b' hb'
    · rename_i hc
      refine absent_tree_B e (.mk q ents cs) (by simpa only [subInvB] using hs) ?_ b' hb'
      simp only [BucketT.ents]
      intro hmem
      rw [List.elem_iff] at hc
      exact hc hmem
theorem remCascade_absent_L (st : Store) (e : EId) (pents : List EId) :
    ∀ bs : BucketList, subInvL pents bs = true →
      ∀ b' ∈ allBucketsL (remCascadeL st e bs).1, e ∉ b'.ents
  | .nil => by intro _ b' hb'; simp [remCascadeL, allBucketsL] at hb'
  | .cons b bs => by
    intro hs b' hb'
    simp only [subInvL, Bool.and_eq_true] at hs
    obtain ⟨⟨hsub, hb⟩, hbs⟩ := hs
    simp only [remCascadeL, allBucketsL, List.mem_append] at hb'
    rcases hb' with hb' | hb'
    · exact remCascade_absent_B st e b hb b' hb'
    · exact remCascade_absent_L st e pents bs hbs b' hb'
end

mutual
theorem eval_absent_B (st : Store) (e : EId) (fut : Option Fields) :
    ∀ b : BucketT, subInvB b = true →
      ∀ b' ∈ allBucketsB (evalB st e fut b).1,
        matchesQ b'.query (testSubject st e fut) = false → e ∉ b'.ents
  | .mk q ents cs => by
    intro hs b' hb' hm
    simp only [subInvB] at hs
    simp only [evalB] at hb'
    split at hb'
    · rename_i hc
      split at hb'
      · rename_i hq
        simp only [allBucketsB, List.mem_cons] at hb'
        rcases hb' with rfl | hb'
        · simp only [BucketT.query] at hm
          rw [hm] at hq
          cases hq
        · exact eval_absent_L st e fut ents cs hs b' hb' hm
      · simp only [allBucketsB, List.mem_cons] at hb'
        rcases hb' with rfl | hb'
        · simp only [BucketT.ents, List.mem_filter]
          rintro ⟨-, h⟩
          simp at h
        · exact remCascade_absent_L st e ents cs hs b' hb'
    · rename_i hc
      split at hb'
      · rename_i hq
        simp only [allBucketsB, List.mem_cons] at hb'
        rcases hb' with rfl | hb'
        · simp only [BucketT.query] at hm
          rw [hm] at hq
          cases hq
        · exact eval_absent_L st e fut ents cs hs b' hb' hm
      · refine absent_tree_B e (.mk q ents cs) (by simpa only [subInvB] using hs) ?_ b' hb'
        simp only [BucketT.ents]
        intro hmem
        rw [List.elem_iff] at hc
        exact hc hmem
theorem eval_absent_L (st : Store) (e : EId) (fut : Option Fields)
    (pents : List EId) :
    ∀ bs : BucketList, subInvL pents bs = true →
      ∀ b' ∈ allBucketsL (evalL st e fut bs).1,
        matchesQ b'.query (testSubject st e fut) = false → e ∉ b'.ents
  | .nil => by intro _ b' hb' _; simp [evalL, allBucketsL] at hb'
  | .cons b bs => by
    intro hs b' hb' hm
    simp only [subInvL, Bool.and_eq_true] at hs
    obtain ⟨⟨hsub, hb⟩, hbs⟩ := hs
    simp only [evalL, allBucketsL, List.mem_append] at hb'
    rcases hb' with hb' | hb'
    · exact eval_absent_B st e fut b hb b' hb' hm
    · exact eval_absent_L st e fut pents bs hbs b' hb' hm
end

/-! ## Identity-table lemmas -/

theorem contains_filter_self (l : List EId) (e : EId) :
    (l.filter (fun x => x ≠ e)).contains e = false := by
  rw [Bool.eq_false_iff]
  intro h
  rw [List.elem_iff, List.mem_filter] at h
  simp at h

theorem purgeId_entities (w : World) (e : EId) :
    (purgeId w e).entities = w.entities := by
  unfold purgeId
  split <;> rfl

theorem purgeId_children (w : World) (e : EId) :
    (purgeId w e).children = w.children := by
  unfold purgeId
  split <;> rfl

theorem purgeId_store (w : World) (e : EId) :
    (purgeId w e).store = w.store := by
  unfold purgeId
  split <;> rfl

theorem purgeId_nextId (w : World) (e : EId) :
    (purgeId w e).nextId = w.nextId := by
  unfold purgeId
  split <;> rfl

theorem idOp_world (w : World) (e : EId) :
    ((World.idOp w e).2).entities = w.entities ∧
    ((World.idOp w e).2).children = w.children ∧
    ((World.idOp w e).2).store = w.store ∧
    (World.idOp w e).2.nextId = w.nextId ∨
      (World.idOp w e).2.nextId = w.nextId + 1 := by
  unfold World.idOp
  split
  · split <;> simp
  · simp

theorem IdInv_injective {w : World} (h : IdInv w) {e₁ e₂ : EId} {n : Nat}
    (h₁ : w.entityToId.lookup e₁ = some n) (h₂ : w.entityToId.lookup e₂ = some n) :
    e₁ = e₂ := by
  have m₁ := (h.1 (e₁, n) (lookup_mem h₁)).1
  have m₂ := (h.1 (e₂, n) (lookup_mem h₂)).1
  rw [m₁] at m₂
  cases m₂
  rfl

theorem IdInv_bound {w : World} (h : IdInv w) {e : EId} {n : Nat}
    (hl : w.entityToId.lookup e = some n) : n < w.nextId :=
  (h.1 (e, n) (lookup_mem hl)).2

theorem IdInv_iff {w : World} (h : IdInv w) (e : EId) (n : Nat) :
    w.entityToId.lookup e = some n ↔ w.idToEntity.lookup n = some e := by
  constructor
  · intro hl
    exact (h.1 (e, n) (lookup_mem hl)).1
  · intro hl
    exact h.2 (n, e) (lookup_mem hl)

theorem purgeId_IdInv {w : World} (h : IdInv w) (e : EId) :
    IdInv (purgeId w e) := by
  obtain ⟨h1, h2⟩ := h
  unfold purgeId
  split
  · exact ⟨h1, h2⟩
  · rename_i n hn
    constructor
    · intro p hp
      rw [List.mem_filter] at hp
      obtain ⟨hpmem, hpne⟩ := hp
      have hne : p.1 ≠ e := by simpa using hpne
      obtain ⟨hlook, hbound⟩ := h1 p hpmem
      have hp2n : p.2 ≠ n := by
        intro hEq
        have he' : w.idToEntity.lookup n = some e :=
          (h1 (e, n) (lookup_mem hn)).1
        rw [hEq] at hlook
        rw [he'] at hlook
        cases hlook
        exact hne rfl
      exact ⟨by rw [lookup_filter_key_ne hp2n]; exact hlook, hbound⟩
    · intro p hp
      rw [List.mem_filter] at hp
      obtain ⟨hpmem, hpne⟩ := hp
      have hne : p.1 ≠ n := by simpa using hpne
      have hlook := h2 p hpmem
      have hp2e : p.2 ≠ e := by
        intro hEq
        rw [hEq, hn] at hlook
        cases hlook
        exact hne rfl
      rw [lookup_filter_key_ne hp2e]
      exact hlook

theorem idOp_IdInv {w : World} (h : IdInv w) (e : EId) :
    IdInv (World.idOp w e).2 := by
  obtain ⟨h1, h2⟩ := h
  unfold World.idOp
  split
  · split
    · exact ⟨h1, h2⟩
    · rename_i hn
      constructor
      · intro p hp
        rcases List.mem_cons.mp hp with rfl | hp
        · refine ⟨?_, Nat.lt_succ_self _⟩
          rw [List.lookup_cons]
          simp
        · obtain ⟨hlook, hbound⟩ := h1 p hp
          refine ⟨?_, Nat.lt_succ_of_lt hbound⟩
          rw [List.lookup_cons]
          have : (p.2 == w.nextId) = false := by
            simp [Nat.ne_of_lt hbound]
          simp only [this, hlook]
      · intro p hp
        rcases List.mem_cons.mp hp with rfl | hp
        · rw [List.lookup_cons]
          simp
        · have hlook := h2 p hp
          have hpe : p.2 ≠ e := by
            intro hEq
            rw [hEq, hn] at hlook
            cases hlook
          rw [List.lookup_cons]
          have : (p.2 == e) = false := by simp [hpe]
          simp only [this, hlook]
  · exact ⟨h1, h2⟩

/-! ## Per-operation preservation of the identity-table invariant -/

theorem add_IdInv {w : World} (h : IdInv w) (e : EId) :
    IdInv (World.add w e).1 := by
  unfold World.add
  split
  · exact h
  · exact h

theorem remove_IdInv {w : World} (h : IdInv w) (e : EId) :
    IdInv (World.remove w e).1 := by
  unfold World.remove
  split
  · dsimp only
    refine purgeId_IdInv ?_ e
    exact h
  · exact h

theorem update_IdInv {w : World} (h : IdInv w) (e : EId) (u : UpdateArg) :
    IdInv (World.update w e u).1 := by
  unfold World.update
  dsimp only
  split
  · exact h
  · exact h

theorem addComponent_IdInv {w : World} (h : IdInv w) (e : EId) (c : Comp)
    (v : Option Val) : IdInv (World.addComponent w e c v).1 := by
  unfold World.addComponent
  split
  · exact h
  · dsimp only
    split
    · exact h
    · exact h

theorem removeComponent_IdInv {w : World} (h : IdInv w) (e : EId) (c : Comp) :
    IdInv (World.removeComponent w e c).1 := by
  unfold World.removeComponent
  split
  · exact h
  · dsimp only
    split
    · exact h
    · exact h

theorem archetype_IdInv {w : World} (h : IdInv w) (q : Query) :
    IdInv (World.archetype w q) := h

theorem applyOp_IdInv {w : World} (h : IdInv w) (o : Op) :
    IdInv (applyOp w o) := by
  cases o with
  | add e => exact add_IdInv h e
  | remove e => exact remove_IdInv h e
  | update e u => exact update_IdInv h e u
  | addComponent e c v => exact addComponent_IdInv h e c v
  | removeComponent e c => exact removeComponent_IdInv h e c
  | id e => exact idOp_IdInv h e
  | archetype q => exact archetype_IdInv h q

theorem runOps_IdInv {w : World} (h : IdInv w) (ops : List Op) :
    IdInv (runOps w ops) := by
  induction ops generalizing w with
  | nil => exact h
  | cons o rest ih => exact ih (applyOp_IdInv h o)

/-! ## Per-operation preservation of the subset invariant -/

theorem add_subInv {w : World} (h : w.subInvW = true) (e : EId) :
    (World.add w e).1.subInvW = true := by
  unfold World.add
  split
  · exact h
  · exact addCascadeL_sub w.store e w.entities (w.entities ++ [e])
      (fun x hx => List.mem_append_left _ hx)
      (List.mem_append_right _ (List.mem_singleton.mpr rfl)) w.children h

theorem remove_subInv {w : World} (h : w.subInvW = true) (e : EId) :
    (World.remove w e).1.subInvW = true := by
  unfold World.remove
  split
  · show World.subInvW _ = true
    unfold World.subInvW
    rw [purgeId_entities, purgeId_children]
    exact remCascadeL_sub w.store e w.entities w.children h
  · exact h

theorem update_subInv {w : World} (h : w.subInvW = true) (e : EId)
    (u : UpdateArg) : (World.update w e u).1.subInvW = true := by
  unfold World.update
  dsimp only
  split
  · rename_i hc
    exact evalL_sub _ e none w.entities w.entities (fun x hx => hx)
      (List.elem_iff.mp hc) w.children h
  · exact h

theorem addComponent_subInv {w : World} (h : w.subInvW = true) (e : EId)
    (c : Comp) (v : Option Val) :
    (World.addComponent w e c v).1.subInvW = true := by
  unfold World.addComponent
  split
  · exact h
  · dsimp only
    split
    · rename_i hc
      exact evalL_sub _ e none w.entities w.entities (fun x hx => hx)
        (List.elem_iff.mp hc) w.children h
    · exact h

theorem removeComponent_subInv {w : World} (h : w.subInvW = true) (e : EId)
    (c : Comp) : (World.removeComponent w e c).1.subInvW = true := by
  unfold World.removeComponent
  split
  · exact h
  · dsimp only
    split
    · rename_i hc
      exact evalL_sub _ e _ w.entities w.entities (fun x hx => hx)
        (List.elem_iff.mp hc) w.children h
    · exact h

theorem archetype_subInv {w : World} (h : w.subInvW = true) (q : Query) :
    (World.archetype w q).subInvW = true := by
  unfold World.archetype World.subInvW
  dsimp only
  simp only [subInvL, Bool.and_eq_true]
  refine ⟨⟨?_, ?_⟩, h⟩
  · rw [List.all_eq_true]
    intro x hx
    simp only [BucketT.ents, List.mem_filter] at hx
    rw [List.elem_iff]
    exact hx.1
  · simp [subInvB, subInvL]

theorem applyOp_subInv {w : World} (h : w.subInvW = true) (o : Op) :
    (applyOp w o).subInvW = true := by
  cases o with
  | add e => exact add_subInv h e
  | remove e => exact remove_subInv h e
  | update e u => exact update_subInv h e u
  | addComponent e c v => exact addComponent_subInv h e c v
  | removeComponent e c => exact removeComponent_subInv h e c
  | id e =>
    show ((World.idOp w e).2).subInvW = true
    unfold World.idOp
    split
    · split
      · exact h
      · exact h
    · exact h
  | archetype q => exact archetype_subInv h q

theorem runOps_subInv {w : World} (h : w.subInvW = true) (ops : List Op) :
    (runOps w ops).subInvW = true := by
  induction ops generalizing w with
  | nil => exact h
  | cons o rest ih => exact ih (applyOp_subInv h o)

/-! ## Stability of the root membership and the id maps across operations -/

theorem idOp_entities (w : World) (x : EId) :
    (World.idOp w x).2.entities = w.entities := by
  unfold World.idOp
  split
  · split <;> rfl
  · rfl

theorem add_entityToId (w : World) (e : EId) :
    (World.add w e).1.entityToId = w.entityToId := by
  unfold World.add
  split <;> rfl

theorem update_entityToId (w : World) (e : EId) (u : UpdateArg) :
    (World.update w e u).1.entityToId = w.entityToId := by
  unfold World.update
  dsimp only
  split <;> rfl

theorem addComponent_entityToId (w : World) (e : EId) (c : Comp)
    (v : Option Val) :
    (World.addComponent w e c v).1.entityToId = w.entityToId := by
  unfold World.addComponent
  split
  · rfl
  · dsimp only
    split <;> rfl

theorem removeComponent_entityToId (w : World) (e : EId) (c : Comp) :
    (World.removeComponent w e c).1.entityToId = w.entityToId := by
  unfold World.removeComponent
  split
  · rfl
  · dsimp only
    split <;> rfl

theorem remove_lookup_ne {w : World} {x e : EId} (hne : e ≠ x) :
    (World.remove w x).1.entityToId.lookup e = w.entityToId.lookup e := by
  unfold World.remove
  split
  · dsimp only
    unfold purgeId
    split
    · rfl
    · dsimp only
      exact lookup_filter_key_ne hne
  · rfl

theorem idOp_lookup_pres {w : World} {x e : EId} {n : Nat}
    (h : w.entityToId.lookup e = some n) :
    (World.idOp w x).2.entityToId.lookup e = some n := by
  unfold World.idOp
  split
  · split
    · exact h
    · rename_i hx
      dsimp only
      rw [List.lookup_cons]
      have hex : (e == x) = false := by
        have : e ≠ x := by
          rintro rfl
          rw [h] at hx
          cases hx
        simp [this]
      simp only [hex, h]
  · exact h

theorem applyOp_lookup_stable {w : World} {e : EId} {n : Nat} {o : Op}
    (ho : o.isRemoveOf e = false)
    (h : w.entityToId.lookup e = some n) :
    (applyOp w o).entityToId.lookup e = some n := by
  cases o with
  | add x => rw [show applyOp w (.add x) = (World.add w x).1 from rfl, add_entityToId]; exact h
  | remove x =>
    have hne : e ≠ x := by
      simp only [Op.isRemoveOf, beq_eq_false_iff_ne] at ho
      exact fun hc => ho hc.symm
    rw [show applyOp w (.remove x) = (World.remove w x).1 from rfl,
      remove_lookup_ne hne]
    exact h
  | update x u => rw [show applyOp w (.update x u) = (World.update w x u).1 from rfl, update_entityToId]; exact h
  | addComponent x c v => rw [show applyOp w (.addComponent x c v) = (World.addComponent w x c v).1 from rfl, addComponent_entityToId]; exact h
  | removeComponent x c => rw [show applyOp w (.removeComponent x c) = (World.removeComponent w x c).1 from rfl, removeComponent_entityToId]; exact h
  | id x => exact idOp_lookup_pres h
  | archetype q => exact h

theorem runOps_lookup_stable {e : EId} {n : Nat} :
    ∀ (ops : List Op) (w : World), (∀ o ∈ ops, o.isRemoveOf e = false) →
      w.entityToId.lookup e = some n →
      (runOps w ops).entityToId.lookup e = some n := by
  intro ops
  induction ops with
  | nil => intro w _ h; exact h
  | cons o rest ih =>
    intro w hall h
    exact ih _ (fun o' ho' => hall o' (List.mem_cons_of_mem _ ho'))
      (applyOp_lookup_stable (hall o (List.mem_cons_self _ _)) h)

theorem applyOp_hasW {w : World} {e : EId} {o : Op}
    (h : w.hasW e = true) (ho : o.isRemoveOf e = false) :
    (applyOp w o).hasW e = true := by
  cases o with
  | add x =>
    show (World.add w x).1.hasW e = true
    unfold World.add
    split
    · exact h
    · show (w.entities ++ [x]).contains e = true
      rw [List.elem_iff]
      rw [World.hasW, List.elem_iff] at h
      exact List.mem_append_left _ h
  | remove x =>
    have hne : e ≠ x := by
      simp only [Op.isRemoveOf, beq_eq_false_iff_ne] at ho
      exact fun hc => ho hc.symm
    show (World.remove w x).1.hasW e = true
    unfold World.remove
    split
    · dsimp only
      show (purgeId _ x).entities.contains e = true
      rw [purgeId_entities]
      show (w.entities.filter (fun y => y ≠ x)).contains e = true
      rw [List.elem_iff, List.mem_filter]
      rw [World.hasW, List.elem_iff] at h
      exact ⟨h, by simpa using hne⟩
    · exact h
  | update x u =>
    show (World.update w x u).1.hasW e = true
    unfold World.update
    dsimp only
    split
    · exact h
    · exact h
  | addComponent x c v =>
    show (World.addComponent w x c v).1.hasW e = true
    unfold World.addComponent
    split
    · exact h
    · dsimp only
      split
      · exact h
      · exact h
  | removeComponent x c =>
    show (World.removeComponent w x c).1.hasW e = true
    unfold World.removeComponent
    split
    · exact h
    · dsimp only
      split
      · exact h
      · exact h
  | id x =>
    show (World.idOp w x).2.hasW e = true
    rw [World.hasW, idOp_entities]
    exact h
  | archetype q => exact h

theorem runOps_hasW {e : EId} :
    ∀ (ops : List Op) (w : World), (∀ o ∈ ops, o.isRemoveOf e = false) →
      w.hasW e = true → (runOps w ops).hasW e = true := by
  intro ops
  induction ops with
  | nil => intro w _ h; exact h
  | cons o rest ih =>
    intro w hall h
    exact ih _ (fun o' ho' => hall o' (List.mem_cons_of_mem _ ho'))
      (applyOp_hasW h (hall o (List.mem_cons_self _ _)))

/-! ## Reduction lemmas for `idOp`, `remove`, `add` -/

theorem idOp_untracked {w : World} {e : EId} (h : w.hasW e = false) :
    World.idOp w e = (none, w) := by
  unfold World.idOp
  rw [h]
  simp

theorem idOp_existing {w : World} {e : EId} {n : Nat}
    (hW : w.hasW e = true) (hL : w.entityToId.lookup e = some n) :
    World.idOp w e = (some n, w) := by
  unfold World.idOp
  rw [hW, hL]
  simp

theorem idOp_fresh {w : World} {e : EId}
    (hW : w.hasW e = true) (hL : w.entityToId.lookup e = none) :
    World.idOp w e = (some w.nextId,
      { w with entityToId := (e, w.nextId) :: w.entityToId,
               idToEntity := (w.nextId, e) :: w.idToEntity,
               nextId := w.nextId + 1 }) := by
  unfold World.idOp
  rw [hW, hL]
  simp

theorem idOp_some {w : World} {e : EId} {n : Nat} (hI : IdInv w)
    (h : (World.idOp w e).1 = some n) :
    w.hasW e = true ∧ (World.idOp w e).2.entityToId.lookup e = some n ∧
    (World.idOp w e).2.hasW e = true ∧ n < (World.idOp w e).2.nextId ∧
    IdInv (World.idOp w e).2 := by
  by_cases hW : w.hasW e = true
  · cases hL : w.entityToId.lookup e with
    | some m =>
      rw [idOp_existing hW hL] at h ⊢
      cases h
      exact ⟨hW, hL, hW, IdInv_bound hI hL, hI⟩
    | none =>
      rw [idOp_fresh hW hL] at h ⊢
      cases h
      refine ⟨hW, ?_, hW, Nat.lt_succ_self _, ?_⟩
      · dsimp only
        rw [List.lookup_cons]
        simp
      · have := idOp_IdInv hI e
        rwa [idOp_fresh hW hL] at this
  · rw [idOp_untracked (Bool.eq_false_iff.mpr hW)] at h
    cases h

theorem remove_hasW_self (w : World) (e : EId) :
    (World.remove w e).1.hasW e = false := by
  unfold World.remove
  split
  · dsimp only
    show (purgeId _ e).entities.contains e = false
    rw [purgeId_entities]
    exact contains_filter_self _ _
  · rename_i hc
    show w.entities.contains e = false
    simpa using hc

theorem remove_parts {w : World} {e : EId} {n : Nat}
    (hW : w.hasW e = true) (hL : w.entityToId.lookup e = some n) :
    (World.remove w e).1.entityToId = w.entityToId.filter (fun p => p.1 ≠ e) ∧
    (World.remove w e).1.idToEntity = w.idToEntity.filter (fun p => p.1 ≠ n) ∧
    (World.remove w e).1.nextId = w.nextId ∧
    (World.remove w e).1.store = w.store := by
  unfold World.remove
  rw [World.hasW] at hW
  rw [hW]
  unfold purgeId
  dsimp only
  rw [hL]
  exact ⟨rfl, rfl, rfl, rfl⟩

theorem add_hasW_self (w : World) (e : EId) :
    (World.add w e).1.hasW e = true := by
  unfold World.add
  split
  · rename_i hc
    exact hc
  · show (w.entities ++ [e]).contains e = true
    rw [List.elem_iff]
    exact List.mem_append_right _ (List.mem_singleton.mpr rfl)

theorem add_untracked_parts {w : World} {e : EId} (hW : w.hasW e = false) :
    (World.add w e).1.entities = w.entities ++ [e] ∧
    (World.add w e).1.entityToId = w.entityToId ∧
    (World.add w e).1.idToEntity = w.idToEntity ∧
    (World.add w e).1.nextId = w.nextId := by
  unfold World.add
  rw [World.hasW] at hW
  rw [hW]
  exact ⟨rfl, rfl, rfl, rfl⟩

/-! ## Reduction lemmas for the mutation operations -/

theorem setStore_self (st : Store) (e : EId) (f : Fields) :
    setStore st e f e = f := by
  simp [setStore]

theorem update_untracked {w : World} {e : EId} {u : UpdateArg}
    (h : w.hasW e = false) :
    World.update w e u =
      ({ w with store := setStore w.store e (applyUpdate (w.store e) u) }, []) := by
  unfold World.update
  dsimp only
  split
  · rename_i h'
    rw [show World.hasW
        { w with store := setStore w.store e (applyUpdate (w.store e) u) } e
        = w.hasW e from rfl, h] at h'
    cases h'
  · rfl

theorem update_tracked {w : World} {e : EId} {u : UpdateArg}
    (h : w.hasW e = true) :
    World.update w e u =
      ({ w with
          store := setStore w.store e (applyUpdate (w.store e) u),
          children := (evalL (setStore w.store e (applyUpdate (w.store e) u)) e none w.children).1 },
        (evalL (setStore w.store e (applyUpdate (w.store e) u)) e none w.children).2) := by
  unfold World.update
  dsimp only
  split
  · rfl
  · rename_i h'
    rw [show World.hasW
        { w with store := setStore w.store e (applyUpdate (w.store e) u) } e
        = w.hasW e from rfl, h] at h'
    simp at h'

theorem addComponent_untracked {w : World} {e : EId} {c : Comp}
    {v : Option Val} (hW : w.hasW e = false)
    (habs : readF (w.store e) c = none) :
    World.addComponent w e c v =
      ({ w with store := setStore w.store e (setField (w.store e) c v) }, []) := by
  unfold World.addComponent
  rw [habs]
  dsimp only
  split
  · rename_i h'
    rw [show World.hasW
        { w with store := setStore w.store e (setField (w.store e) c v) } e
        = w.hasW e from rfl, hW] at h'
    cases h'
  · rfl

theorem addComponent_proceeds {w : World} {e : EId} {c : Comp}
    {v : Option Val} (hW : w.hasW e = true)
    (habs : readF (w.store e) c = none) :
    World.addComponent w e c v =
      ({ w with
          store := setStore w.store e (setField (w.store e) c v),
          children := (evalL (setStore w.store e (setField (w.store e) c v)) e none w.children).1 },
        (evalL (setStore w.store e (setField (w.store e) c v)) e none w.children).2) := by
  unfold World.addComponent
  rw [habs]
  dsimp only
  split
  · rfl
  · rename_i h'
    rw [show World.hasW
        { w with store := setStore w.store e (setField (w.store e) c v) } e
        = w.hasW e from rfl, hW] at h'
    simp at h'

theorem removeComponent_untracked {w : World} {e : EId} {c : Comp}
    {v : Val} (hW : w.hasW e = false)
    (hpres : readF (w.store e) c = some v) :
    World.removeComponent w e c =
      ({ w with store := setStore w.store e (deleteField (w.store e) c) }, []) := by
  unfold World.removeComponent
  rw [hpres]
  dsimp only
  split
  · rename_i h'
    rw [hW] at h'
    cases h'
  · rfl

theorem removeComponent_tracked {w : World} {e : EId} {c : Comp}
    {v : Val} (hW : w.hasW e = true)
    (hpres : readF (w.store e) c = some v) :
    World.removeComponent w e c =
      ({ w with
          store := setStore w.store e (deleteField (w.store e) c),
          children := (evalL w.store e (some (deleteField (w.store e) c)) w.children).1 },
        (evalL w.store e (some (deleteField (w.store e) c)) w.children).2) := by
  unfold World.removeComponent
  rw [hpres]
  dsimp only
  split
  · rfl
  · rename_i h'
    rw [hW] at h'

/-! ## Claim theorems -/

/-- C5: `addComponent` on an already-present component is a complete no-op
(the world — entity fields, every bucket, identity table — is returned
unchanged and no event fires), and symmetrically `removeComponent` on an
absent component is a complete no-op; neither raises an error. -/
theorem C5_component_guard_noops (w₁ w₂ : World) (e₁ e₂ : EId)
    (c₁ c₂ : Comp) (v : Val) (v' : Option Val)
    (hpres : readF (w₁.store e₁) c₁ = some v)
    (habs : readF (w₂.store e₂) c₂ = none) :
    World.addComponent w₁ e₁ c₁ v' = (w₁, []) ∧
    World.removeComponent w₂ e₂ c₂ = (w₂, []) := by
  constructor
  · unfold World.addComponent
    rw [hpres]
  · unfold World.removeComponent
    rw [habs]

/-- Witness for C5: adding `age` to John (already present) and removing
`height` from John (absent) both leave the example world untouched. -/
theorem C5_component_guard_noops_witness :
    World.addComponent exWorld 0 "age" (some (Val.int 1)) = (exWorld, []) ∧
    World.removeComponent exWorld 0 "height" = (exWorld, []) :=
  C5_component_guard_noops exWorld exWorld 0 0 "age" "height"
    (Val.int 30) (some (Val.int 1)) (by decide) (by decide)

/-- C8: `World.add` is idempotent — adding an entity that is already a
member returns the world unchanged (same entity list, no entity-added
event), and in particular a second `add` right after a first one is such a
no-op. -/
theorem C8_add_idempotent (w : World) (e : EId) (h : w.hasW e = true) :
    World.add w e = (w, []) ∧
    World.add (World.add w e).1 e = ((World.add w e).1, []) := by
  have key : ∀ w' : World, w'.hasW e = true → World.add w' e = (w', []) := by
    intro w' h'
    unfold World.add
    rw [World.hasW] at h'
    rw [h']
    simp
  exact ⟨key w h, key _ (add_hasW_self w e)⟩

/-- Witness for C8: re-adding the already-tracked John is a no-op. -/
theorem C8_add_idempotent_witness :
    World.add exWorld 0 = (exWorld, []) ∧
    World.add (World.add exWorld 0).1 0 = ((World.add exWorld 0).1, []) :=
  C8_add_idempotent exWorld 0 (by decide)

/-- C4: `update` (any call shape), `addComponent` (component absent) and
`removeComponent` (component present) on an entity the world does not
track mutate the entity's fields as requested but never reindex: the root
membership and every derived bucket are untouched and no event fires; no
error is raised. -/
theorem C4_untracked_mutations_skip_reindexing (w : World) (e : EId)
    (u : UpdateArg) (c c' : Comp) (v : Option Val) (vold : Val)
    (huntracked : w.hasW e = false)
    (habs : readF (w.store e) c = none)
    (hpres : readF (w.store e) c' = some vold) :
    ((World.update w e u).1.store e = applyUpdate (w.store e) u ∧
      (World.update w e u).1.entities = w.entities ∧
      (World.update w e u).1.children = w.children ∧
      (World.update w e u).2 = []) ∧
    ((World.addComponent w e c v).1.store e = setField (w.store e) c v ∧
      (World.addComponent w e c v).1.entities = w.entities ∧
      (World.addComponent w e c v).1.children = w.children ∧
      (World.addComponent w e c v).2 = []) ∧
    ((World.removeComponent w e c').1.store e = deleteField (w.store e) c' ∧
      (World.removeComponent w e c').1.entities = w.entities ∧
      (World.removeComponent w e c').1.children = w.children ∧
      (World.removeComponent w e c').2 = []) := by
  refine ⟨?_, ?_, ?_⟩
  · rw [update_untracked huntracked]
    exact ⟨setStore_self _ _ _, rfl, rfl, rfl⟩
  · rw [addComponent_untracked huntracked habs]
    exact ⟨setStore_self _ _ _, rfl, rfl, rfl⟩
  · rw [removeComponent_untracked huntracked hpres]
    exact ⟨setStore_self _ _ _, rfl, rfl, rfl⟩

/-- Witness for C4: mutating the untracked Bob (entity 2) — a no-argument
`update`, adding the absent `age`, removing the present `name` — touches
only his fields, never the buckets, and fires nothing. -/
theorem C4_untracked_mutations_skip_reindexing_witness :
    ((World.update exWorld 2 .noArg).1.store 2
        = applyUpdate (exWorld.store 2) .noArg ∧
      (World.update exWorld 2 .noArg).1.entities = exWorld.entities ∧
      (World.update exWorld 2 .noArg).1.children = exWorld.children ∧
      (World.update exWorld 2 .noArg).2 = []) ∧
    ((World.addComponent exWorld 2 "age" (some (Val.int 7))).1.store 2
        = setField (exWorld.store 2) "age" (some (Val.int 7)) ∧
      (World.addComponent exWorld 2 "age" (some (Val.int 7))).1.entities
        = exWorld.entities ∧
      (World.addComponent exWorld 2 "age" (some (Val.int 7))).1.children
        = exWorld.children ∧
      (World.addComponent exWorld 2 "age" (some (Val.int 7))).2 = []) ∧
    ((World.removeComponent exWorld 2 "name").1.store 2
        = deleteField (exWorld.store 2) "name" ∧
      (World.removeComponent exWorld 2 "name").1.entities = exWorld.entities ∧
      (World.removeComponent exWorld 2 "name").1.children = exWorld.children ∧
      (World.removeComponent exWorld 2 "name").2 = []) :=
  C4_untracked_mutations_skip_reindexing exWorld 2 .noArg "age" "name"
    (some (Val.int 7)) (Val.str "Bob") (by decide) (by decide) (by decide)

/-- C1: for a tracked entity `e` with component `c` present,
`removeComponent` first runs `evaluate(e, copy)` against a shallow copy
lacking `c`; every event fired during that evaluation hands the listener
the real, still-intact entity — in particular every entity-removed
listener still reads the old value of `c` on it — and only after the
evaluation does the field get deleted: afterwards `e[c]` reads the
missing-sentinel. -/
theorem C1_removeComponent_future_check (w : World) (e : EId) (c : Comp)
    (v : Val) (htrack : w.hasW e = true)
    (hpres : readF (w.store e) c = some v) :
    readF ((World.removeComponent w e c).1.store e) c = none ∧
    (World.removeComponent w e c).2.all
      (fun ev => ev.ent == e && ev.snap == w.store e) = true ∧
    (World.removeComponent w e c).2.all
      (fun ev => readF ev.snap c == some v) = true := by
  rw [removeComponent_tracked htrack hpres]
  refine ⟨?_, ?_, ?_⟩
  · show readF (setStore w.store e (deleteField (w.store e) c) e) c = none
    rw [setStore_self]
    exact readF_deleteField_self _ _
  · rw [List.all_eq_true]
    intro ev hev
    rcases evalL_events w.store e _ w.children ev hev with rfl | rfl <;>
      simp [Event.ent, Event.snap]
  · rw [List.all_eq_true]
    intro ev hev
    rcases evalL_events w.store e _ w.children ev hev with rfl | rfl <;>
      simp [Event.snap, hpres]

/-- Witness for C1: removing John's `age` — the single fired event is the
age-index removal carrying the intact John (age still 30), and afterwards
his `age` reads `undefined`. -/
theorem C1_removeComponent_future_check_witness :
    readF ((World.removeComponent exWorld 0 "age").1.store 0) "age" = none ∧
    (World.removeComponent exWorld 0 "age").2.all
      (fun ev => ev.ent == 0 && ev.snap == exWorld.store 0) = true ∧
    (World.removeComponent exWorld 0 "age").2.all
      (fun ev => readF ev.snap "age" == some (Val.int 30)) = true :=
  C1_removeComponent_future_check exWorld 0 "age" (Val.int 30)
    (by decide) (by decide)

/-- C3: when a component has been explicitly assigned the missing-sentinel
(the field is physically there, storing `undefined`), `addComponent`
treats it exactly like a never-set component: the already-present guard
does not fire (presence is decided by the read value, not a has-own-field
check), the value is assigned, and — since the entity is tracked —
reindexing runs via `evaluate` on the mutated entity. -/
theorem C3_addComponent_on_explicit_undefined (w : World) (e : EId)
    (c : Comp) (v : Val)
    (hstored : (w.store e).lookup c = some none)
    (htrack : w.hasW e = true) :
    (World.addComponent w e c (some v)).1.store e
        = setField (w.store e) c (some v) ∧
    readF ((World.addComponent w e c (some v)).1.store e) c = some v ∧
    (World.addComponent w e c (some v)).1.children
        = (evalL (setStore w.store e (setField (w.store e) c (some v))) e none w.children).1 ∧
    (World.addComponent w e c (some v)).2
        = (evalL (setStore w.store e (setField (w.store e) c (some v))) e none w.children).2 := by
  have habs : readF (w.store e) c = none := by
    unfold readF
    rw [hstored]
  rw [addComponent_proceeds htrack habs]
  refine ⟨setStore_self _ _ _, ?_, rfl, rfl⟩
  show readF (setStore w.store e (setField (w.store e) c (some v)) e) c = some v
  rw [setStore_self]
  exact readF_setField_self _ _ _

/-- Witness for C3: entity 0 of `exWorldUndef` has `age` explicitly set to
`undefined`; `addComponent(0, "age", 28)` assigns the value and reindexes. -/
theorem C3_addComponent_on_explicit_undefined_witness :
    (World.addComponent exWorldUndef 0 "age" (some (Val.int 28))).1.store 0
        = setField (exWorldUndef.store 0) "age" (some (Val.int 28)) ∧
    readF ((World.addComponent exWorldUndef 0 "age" (some (Val.int 28))).1.store 0) "age"
        = some (Val.int 28) ∧
    (World.addComponent exWorldUndef 0 "age" (some (Val.int 28))).1.children
        = (evalL (setStore exWorldUndef.store 0
            (setField (exWorldUndef.store 0) "age" (some (Val.int 28))))
            0 none exWorldUndef.children).1 ∧
    (World.addComponent exWorldUndef 0 "age" (some (Val.int 28))).2
        = (evalL (setStore exWorldUndef.store 0
            (setField (exWorldUndef.store 0) "age" (some (Val.int 28))))
            0 none exWorldUndef.children).2 :=
  C3_addComponent_on_explicit_undefined exWorldUndef 0 "age" (Val.int 28)
    (by decide) (by decide)

/-- C10: for a tracked entity with `c` absent, `addComponent(e, c,
undefined)` is not rejected by the already-present guard: it stores the
missing-sentinel (so `c` stays absent under the presence rule) and still
runs a reindexing pass via `evaluate`; afterwards no archetype index
requiring `c` contains `e`. -/
theorem C10_addComponent_undefined_value (w : World) (e : EId) (c : Comp)
    (hs : w.subInvW = true) (htrack : w.hasW e = true)
    (habs : readF (w.store e) c = none) :
    (World.addComponent w e c none).1.store e = setField (w.store e) c none ∧
    readF ((World.addComponent w e c none).1.store e) c = none ∧
    (World.addComponent w e c none).1.children
        = (evalL (setStore w.store e (setField (w.store e) c none)) e none w.children).1 ∧
    (World.addComponent w e c none).2
        = (evalL (setStore w.store e (setField (w.store e) c none)) e none w.children).2 ∧
    (World.addComponent w e c none).1.allIndices.all
      (fun b => !(b.query.withs.contains c) || !(b.ents.contains e)) = true := by
  rw [addComponent_proceeds htrack habs]
  refine ⟨setStore_self _ _ _, ?_, rfl, rfl, ?_⟩
  · show readF (setStore w.store e (setField (w.store e) c none) e) c = none
    rw [setStore_self]
    exact readF_setField_self _ _ _
  · rw [List.all_eq_true]
    intro b hb
    by_cases hc : c ∈ b.query.withs
    · have hm : matchesQ b.query
          (testSubject (setStore w.store e (setField (w.store e) c none)) e none)
          = false := by
        apply matchesQ_eq_false_of_with hc
        show presentF (setStore w.store e (setField (w.store e) c none) e) c = false
        rw [setStore_self]
        unfold presentF
        rw [readF_setField_self]
        rfl
      have hnot := eval_absent_L
        (setStore w.store e (setField (w.store e) c none)) e none
        w.entities w.children hs b hb hm
      have : b.ents.contains e = false := by
        rw [Bool.eq_false_iff]
        intro hcon
        rw [List.elem_iff] at hcon
        exact hnot hcon
      rw [this]
      simp
    · have : b.query.withs.contains c = false := by
        rw [Bool.eq_false_iff]
        intro hcon
        rw [List.elem_iff] at hcon
        exact hc hcon
      rw [this]
      simp

/-- Witness for C10: assigning `undefined` to the absent `age` of the
tracked entity 0 keeps `age` absent, reindexes, and the age index still
excludes the entity. -/
theorem C10_addComponent_undefined_value_witness :
    (World.addComponent exWorldUndef 0 "age" none).1.store 0
        = setField (exWorldUndef.store 0) "age" none ∧
    readF ((World.addComponent exWorldUndef 0 "age" none).1.store 0) "age"
        = none ∧
    (World.addComponent exWorldUndef 0 "age" none).1.children
        = (evalL (setStore exWorldUndef.store 0
            (setField (exWorldUndef.store 0) "age" none))
            0 none exWorldUndef.children).1 ∧
    (World.addComponent exWorldUndef 0 "age" none).2
        = (evalL (setStore exWorldUndef.store 0
            (setField (exWorldUndef.store 0) "age" none))
            0 none exWorldUndef.children).2 ∧
    (World.addComponent exWorldUndef 0 "age" none).1.allIndices.all
      (fun b => !(b.query.withs.contains "age") || !(b.ents.contains 0)) = true :=
  C10_addComponent_undefined_value exWorldUndef 0 "age"
    (by decide) (by decide) (by decide)

/-- C2: the subset invariant — every derived index's membership is
contained in its parent bucket's membership, all the way down the DAG —
holds after each World operation (add, remove, update, addComponent,
removeComponent), after deriving a new archetype, and after any sequence
of public operations, whenever it held before. -/
theorem C2_subset_invariant_preserved (w : World) (hs : w.subInvW = true)
    (e : EId) (u : UpdateArg) (c : Comp) (v : Option Val) (q : Query)
    (ops : List Op) :
    (World.add w e).1.subInvW = true ∧
    (World.remove w e).1.subInvW = true ∧
    (World.update w e u).1.subInvW = true ∧
    (World.addComponent w e c v).1.subInvW = true ∧
    (World.removeComponent w e c).1.subInvW = true ∧
    (World.archetype w q).subInvW = true ∧
    (runOps w ops).subInvW = true :=
  ⟨add_subInv hs e, remove_subInv hs e, update_subInv hs e u,
    addComponent_subInv hs e c v, removeComponent_subInv hs e c,
    archetype_subInv hs q, runOps_subInv hs ops⟩

/-- Witness for C2 on the example world (age index under the root), with a
concrete operation sequence. -/
theorem C2_subset_invariant_preserved_witness :
    (World.add exWorld 2).1.subInvW = true ∧
    (World.remove exWorld 0).1.subInvW = true ∧
    (World.update exWorld 0 .noArg).1.subInvW = true ∧
    (World.addComponent exWorld 0 "height" (some (Val.int 180))).1.subInvW = true ∧
    (World.removeComponent exWorld 0 "age").1.subInvW = true ∧
    (World.archetype exWorld exQAge).subInvW = true ∧
    (runOps exWorld [.add 2, .removeComponent 0 "age", .id 1]).subInvW = true := by
  have h := C2_subset_invariant_preserved exWorld (by decide) 0 .noArg
    "age" none exQAge [.add 2, .removeComponent 0 "age", .id 1]
  exact ⟨(C2_subset_invariant_preserved exWorld (by decide) 2 .noArg "h" none
      exQAge []).1,
    h.2.1, h.2.2.1,
    (C2_subset_invariant_preserved exWorld (by decide) 0 .noArg "height"
      (some (Val.int 180)) exQAge []).2.2.2.1,
    h.2.2.2.2.1, h.2.2.2.2.2.1, h.2.2.2.2.2.2⟩

/-- C9: the two identity maps are mutual inverses — an entry of one is
found by lookup in the other, in both directions — and every stored id is
strictly below the counter; the invariant is preserved by every public
World operation and any sequence of them. -/
theorem C9_identity_maps_mutual_inverse (w : World) (hI : IdInv w)
    (e e₁ e₂ : EId) (n₁ n₂ : Nat) (u : UpdateArg) (c : Comp)
    (v : Option Val) (ops : List Op)
    (hb₁ : w.entityToId.lookup e₁ = some n₁)
    (hb₂ : w.idToEntity.lookup n₂ = some e₂) :
    w.idToEntity.lookup n₁ = some e₁ ∧
    w.entityToId.lookup e₂ = some n₂ ∧
    n₁ < w.nextId ∧
    IdInv (World.add w e).1 ∧
    IdInv (World.remove w e).1 ∧
    IdInv (World.update w e u).1 ∧
    IdInv (World.addComponent w e c v).1 ∧
    IdInv (World.removeComponent w e c).1 ∧
    IdInv (World.idOp w e).2 ∧
    IdInv (runOps w ops) :=
  ⟨(IdInv_iff hI e₁ n₁).mp hb₁, (IdInv_iff hI e₂ n₂).mpr hb₂,
    IdInv_bound hI hb₁, add_IdInv hI e, remove_IdInv hI e,
    update_IdInv hI e u, addComponent_IdInv hI e c v,
    removeComponent_IdInv hI e c, idOp_IdInv hI e, runOps_IdInv hI ops⟩

/-- Witness for C9 on the example world whose identity table maps John to
id 0. -/
theorem C9_identity_maps_mutual_inverse_witness :
    exWorldIds.idToEntity.lookup 0 = some 0 ∧
    exWorldIds.entityToId.lookup 0 = some 0 ∧
    0 < exWorldIds.nextId ∧
    IdInv (World.add exWorldIds 2).1 ∧
    IdInv (World.remove exWorldIds 0).1 ∧
    IdInv (World.update exWorldIds 0 .noArg).1 ∧
    IdInv (World.addComponent exWorldIds 0 "height" (some (Val.int 180))).1 ∧
    IdInv (World.removeComponent exWorldIds 0 "age").1 ∧
    IdInv (World.idOp exWorldIds 1).2 ∧
    IdInv (runOps exWorldIds [.remove 0, .add 0, .id 0]) := by
  have h := C9_identity_maps_mutual_inverse exWorldIds (by decide) 1 0 0 0 0
    .noArg "age" none [.remove 0, .add 0, .id 0] (by decide) (by decide)
  exact ⟨h.1, h.2.1, h.2.2.1,
    (C9_identity_maps_mutual_inverse exWorldIds (by decide) 2 0 0 0 0
      .noArg "h" none [] (by decide) (by decide)).2.2.2.1,
    (C9_identity_maps_mutual_inverse exWorldIds (by decide) 0 0 0 0 0
      .noArg "h" none [] (by decide) (by decide)).2.2.2.2.1,
    (C9_identity_maps_mutual_inverse exWorldIds (by decide) 0 0 0 0 0
      .noArg "h" none [] (by decide) (by decide)).2.2.2.2.2.1,
    (C9_identity_maps_mutual_inverse exWorldIds (by decide) 0 0 0 0 0
      .noArg "height" (some (Val.int 180)) [] (by decide)
      (by decide)).2.2.2.2.2.2.1,
    (C9_identity_maps_mutual_inverse exWorldIds (by decide) 0 0 0 0 0
      .noArg "age" none [] (by decide) (by decide)).2.2.2.2.2.2.2.1,
    (C9_identity_maps_mutual_inverse exWorldIds (by decide) 1 0 0 0 0
      .noArg "h" none [] (by decide) (by decide)).2.2.2.2.2.2.2.2.1,
    h.2.2.2.2.2.2.2.2.2⟩

/-- C7: if `id(e)` returned `n`, then after `remove(e)` both identity-map
entries are purged (`entity(n)` and `id(e)` return the no-value result),
and after re-adding `e` the next `id(e)` call returns the untouched
counter value, which is strictly greater than `n` — the counter never
resets and dropped ids are not recycled. -/
theorem C7_ids_purged_on_remove_not_recycled (w : World) (e : EId) (n : Nat)
    (hI : IdInv w) (h1 : (World.idOp w e).1 = some n) :
    World.entityOp (World.remove (World.idOp w e).2 e).1 n = none ∧
    World.idOp (World.remove (World.idOp w e).2 e).1 e
      = (none, (World.remove (World.idOp w e).2 e).1) ∧
    (World.idOp (World.add (World.remove (World.idOp w e).2 e).1 e).1 e).1
      = some (World.remove (World.idOp w e).2 e).1.nextId ∧
    n < (World.remove (World.idOp w e).2 e).1.nextId ∧
    (World.idOp (World.add (World.remove (World.idOp w e).2 e).1 e).1 e).1
      ≠ some n := by
  obtain ⟨hW, hlook₁, hasW₁, hbound, hI₁⟩ := idOp_some hI h1
  obtain ⟨hmapE, hmapI, hnext, hstore⟩ := remove_parts hasW₁ hlook₁
  have h2 : World.entityOp (World.remove (World.idOp w e).2 e).1 n = none := by
    unfold World.entityOp
    rw [hmapI]
    exact lookup_filter_key_self
  have hW₂ : (World.remove (World.idOp w e).2 e).1.hasW e = false :=
    remove_hasW_self _ e
  have h3 := idOp_untracked hW₂
  obtain ⟨hents₃, hmap₃, hmapI₃, hnext₃⟩ := add_untracked_parts hW₂
  have hlook₃ :
      (World.add (World.remove (World.idOp w e).2 e).1 e).1.entityToId.lookup e
        = none := by
    rw [hmap₃, hmapE]
    exact lookup_filter_key_self
  have h4 := idOp_fresh (add_hasW_self (World.remove (World.idOp w e).2 e).1 e)
    hlook₃
  have h5 : (World.idOp
      (World.add (World.remove (World.idOp w e).2 e).1 e).1 e).1
        = some (World.remove (World.idOp w e).2 e).1.nextId := by
    rw [h4]
    dsimp only
    rw [hnext₃]
  have hb : n < (World.remove (World.idOp w e).2 e).1.nextId := by
    rw [hnext]
    exact hbound
  refine ⟨h2, h3, h5, hb, ?_⟩
  rw [h5]
  intro hEq
  rw [Option.some_inj] at hEq
  omega

/-- Witness for C7: John (id 0) removed from `exWorldIds` and re-added —
the next id is the counter value 1, not the dropped 0. -/
theorem C7_ids_purged_on_remove_not_recycled_witness :
    World.entityOp (World.remove (World.idOp exWorldIds 0).2 0).1 0 = none ∧
    World.idOp (World.remove (World.idOp exWorldIds 0).2 0).1 0
      = (none, (World.remove (World.idOp exWorldIds 0).2 0).1) ∧
    (World.idOp (World.add
      (World.remove (World.idOp exWorldIds 0).2 0).1 0).1 0).1
      = some (World.remove (World.idOp exWorldIds 0).2 0).1.nextId ∧
    0 < (World.remove (World.idOp exWorldIds 0).2 0).1.nextId ∧
    (World.idOp (World.add
      (World.remove (World.idOp exWorldIds 0).2 0).1 0).1 0).1
      ≠ some 0 :=
  C7_ids_purged_on_remove_not_recycled exWorldIds 0 0 (by decide) (by decide)

/-- C6: `id` returns the no-value result for untracked entities; a first
call on a tracked entity hands out the current counter value and bumps the
counter; while the entity stays tracked (any operation sequence that never
removes it), a later call returns the same value; and ids handed to two
distinct tracked entities are distinct. -/
theorem C6_id_lazy_stable_distinct (w : World) (hI : IdInv w)
    (e₀ e₁ e₂ e₃ e₄ : EId) (n₂ n₃ n₄ : Nat) (ops : List Op)
    (h₀ : w.hasW e₀ = false)
    (h₁ : w.hasW e₁ = true) (hL₁ : w.entityToId.lookup e₁ = none)
    (h₂ : (World.idOp w e₂).1 = some n₂)
    (hops : ops.all (fun o => !(o.isRemoveOf e₂)) = true)
    (hne : e₃ ≠ e₄)
    (h₃ : (World.idOp w e₃).1 = some n₃)
    (h₄ : (World.idOp (World.idOp w e₃).2 e₄).1 = some n₄) :
    World.idOp w e₀ = (none, w) ∧
    (World.idOp w e₁).1 = some w.nextId ∧
    (World.idOp w e₁).2.nextId = w.nextId + 1 ∧
    (World.idOp w e₁).2.entityToId.lookup e₁ = some w.nextId ∧
    World.idOp (runOps (World.idOp w e₂).2 ops) e₂
      = (some n₂, runOps (World.idOp w e₂).2 ops) ∧
    n₃ ≠ n₄ := by
  refine ⟨idOp_untracked h₀, ?_, ?_, ?_, ?_, ?_⟩
  · rw [idOp_fresh h₁ hL₁]
  · rw [idOp_fresh h₁ hL₁]
  · rw [idOp_fresh h₁ hL₁]
    dsimp only
    rw [List.lookup_cons]
    simp
  · obtain ⟨hW₂, hlook₂, hasW₂', hbound₂, hI₂⟩ := idOp_some hI h₂
    have hops' : ∀ o ∈ ops, o.isRemoveOf e₂ = false := by
      intro o ho
      simpa using List.all_eq_true.mp hops o ho
    exact idOp_existing (runOps_hasW ops _ hops' hasW₂')
      (runOps_lookup_stable ops _ hops' hlook₂)
  · by_cases hW₃ : w.hasW e₃ = true
    · cases hL₃ : w.entityToId.lookup e₃ with
      | some m =>
        rw [idOp_existing hW₃ hL₃] at h₃ h₄
        dsimp only at h₃
        rw [Option.some_inj] at h₃
        subst h₃
        by_cases hW₄ : w.hasW e₄ = true
        · cases hL₄ : w.entityToId.lookup e₄ with
          | some k =>
            rw [idOp_existing hW₄ hL₄] at h₄
            dsimp only at h₄
            rw [Option.some_inj] at h₄
            subst h₄
            intro hEq
            refine hne (IdInv_injective hI hL₃ ?_)
            rw [hL₄, hEq]
          | none =>
            rw [idOp_fresh hW₄ hL₄] at h₄
            dsimp only at h₄
            rw [Option.some_inj] at h₄
            have := IdInv_bound hI hL₃
            omega
        · rw [idOp_untracked (Bool.eq_false_iff.mpr hW₄)] at h₄
          cases h₄
      | none =>
        rw [idOp_fresh hW₃ hL₃] at h₃ h₄
        dsimp only at h₃
        rw [Option.some_inj] at h₃
        subst h₃
        by_cases hW₄ : w.hasW e₄ = true
        · have hW₄' : ({ w with
              entityToId := (e₃, w.nextId) :: w.entityToId,
              idToEntity := (w.nextId, e₃) :: w.idToEntity,
              nextId := w.nextId + 1 } : World).hasW e₄ = true := hW₄
          have hlookc : ({ w with
              entityToId := (e₃, w.nextId) :: w.entityToId,
              idToEntity := (w.nextId, e₃) :: w.idToEntity,
              nextId := w.nextId + 1 } : World).entityToId.lookup e₄
              = w.entityToId.lookup e₄ := by
            dsimp only
            rw [List.lookup_cons]
            have hb : (e₄ == e₃) = false := by simp [Ne.symm hne]
            simp [hb]
          cases hL₄ : w.entityToId.lookup e₄ with
          | some k =>
            rw [idOp_existing hW₄' (by rw [hlookc, hL₄])] at h₄
            dsimp only at h₄
            rw [Option.some_inj] at h₄
            have := IdInv_bound hI hL₄
            omega
          | none =>
            rw [idOp_fresh hW₄' (by rw [hlookc, hL₄])] at h₄
            dsimp only at h₄
            rw [Option.some_inj] at h₄
            omega
        · have hW₄' : ({ w with
              entityToId := (e₃, w.nextId) :: w.entityToId,
              idToEntity := (w.nextId, e₃) :: w.idToEntity,
              nextId := w.nextId + 1 } : World).hasW e₄ = false :=
            Bool.eq_false_iff.mpr hW₄
          rw [idOp_untracked hW₄'] at h₄
          cases h₄
    · rw [idOp_untracked (Bool.eq_false_iff.mpr hW₃)] at h₃
      cases h₃

/-- Witness for C6 on `exWorldIds`: entity 5 is untracked; entity 1 gets
the counter value 1 on first call; John's id 0 survives an operation
sequence that does not remove him; John and Jane receive distinct ids. -/
theorem C6_id_lazy_stable_distinct_witness :
    World.idOp exWorldIds 5 = (none, exWorldIds) ∧
    (World.idOp exWorldIds 1).1 = some exWorldIds.nextId ∧
    (World.idOp exWorldIds 1).2.nextId = exWorldIds.nextId + 1 ∧
    (World.idOp exWorldIds 1).2.entityToId.lookup 1 = some exWorldIds.nextId ∧
    World.idOp (runOps (World.idOp exWorldIds 0).2 [.add 2, .id 1]) 0
      = (some 0, runOps (World.idOp exWorldIds 0).2 [.add 2, .id 1]) ∧
    (0 : Nat) ≠ 1 :=
  C6_id_lazy_stable_distinct exWorldIds (by decide) 5 1 0 0 1 0 0 1
    [.add 2, .id 1] (by decide) (by decide) (by decide) (by decide)
    (by decide) (by decide) (by decide) (by decide)
